import Mathlib

/-!
# Blob page header, freelist allocator and B-tree enumeration

A shallow embedding of

* `src/3blob_manager/blob_manager_disk.h` : the packed `PBlobPageHeader`
  (two 32-bit counters and a table of 32 offset/size pairs), its accessors,
  and the `kPageOverhead` constant of `DiskBlobManager`;
* `src/btree_enum.c` : `btree_enumerate`, `my_enumerate_level` and
  `my_enumerate_page`.

32-bit fields are natural numbers; every store through a `uint32_t`
parameter reduces the value modulo `2^32`.  Indexing `m_freelist[i]` with
`i >= 32` is undefined in the source; the accessors return `none` there.
-/

namespace upscaledb

/-- Number of values of a `uint32_t`. -/
def U32 : Nat := 4294967296

/-- The nested `struct FreelistEntry` with members `uint32_t offset` and
`uint32_t size`. -/
structure FreelistEntry where
  offset : Nat
  size : Nat
deriving DecidableEq, Repr

/-- The class `PBlobPageHeader`: `m_num_pages`, `m_free_bytes` and the
fixed table `FreelistEntry m_freelist[32]`. -/
structure PBlobPageHeader where
  m_num_pages : Nat
  m_free_bytes : Nat
  m_freelist : List FreelistEntry
  m_freelist_len : m_freelist.length = 32

namespace PBlobPageHeader

/-- The body is `memset(this, 0, sizeof(PBlobPageHeader))`: every field becomes
zero. -/
def initialize_header (_h : PBlobPageHeader) : PBlobPageHeader :=
  { m_num_pages := 0
    m_free_bytes := 0
    m_freelist := List.replicate 32 { offset := 0, size := 0 }
    m_freelist_len := List.length_replicate _ _ }

/-- Getter: `return (m_num_pages);` -/
def get_num_pages (h : PBlobPageHeader) : Nat := h.m_num_pages

/-- Setter: `m_num_pages = num_pages;` with `num_pages` a `uint32_t`. -/
def set_num_pages (h : PBlobPageHeader) (num_pages : Nat) : PBlobPageHeader :=
  { h with m_num_pages := num_pages % U32 }

/-- Getter: `return (m_free_bytes);` -/
def get_free_bytes (h : PBlobPageHeader) : Nat := h.m_free_bytes

/-- Setter: `m_free_bytes = free_bytes;` with `free_bytes` a `uint32_t`. -/
def set_free_bytes (h : PBlobPageHeader) (free_bytes : Nat) : PBlobPageHeader :=
  { h with m_free_bytes := free_bytes % U32 }

/-- Getter: `return (32);` -/
def get_freelist_entries (_h : PBlobPageHeader) : Nat := 32

/-- Getter: `return (m_freelist[i].offset);`, `none` when `i` is outside the table. -/
def get_freelist_offset (h : PBlobPageHeader) (i : Nat) : Option Nat :=
  if hi : i < 32 then
    some (h.m_freelist.get ⟨i, h.m_freelist_len ▸ hi⟩).offset
  else none

/-- Setter: `m_freelist[i].offset = offset;`, `none` when `i` is outside the table. -/
def set_freelist_offset (h : PBlobPageHeader) (i offset : Nat) :
    Option PBlobPageHeader :=
  if hi : i < 32 then
    some { h with
      m_freelist := h.m_freelist.set i
        { h.m_freelist.get ⟨i, h.m_freelist_len ▸ hi⟩ with offset := offset % U32 }
      m_freelist_len := by rw [List.length_set]; exact h.m_freelist_len }
  else none

/-- Getter: `return (m_freelist[i].size);`, `none` when `i` is outside the table. -/
def get_freelist_size (h : PBlobPageHeader) (i : Nat) : Option Nat :=
  if hi : i < 32 then
    some (h.m_freelist.get ⟨i, h.m_freelist_len ▸ hi⟩).size
  else none

/-- Setter: `m_freelist[i].size = size;`, `none` when `i` is outside the table. -/
def set_freelist_size (h : PBlobPageHeader) (i size : Nat) :
    Option PBlobPageHeader :=
  if hi : i < 32 then
    some { h with
      m_freelist := h.m_freelist.set i
        { h.m_freelist.get ⟨i, h.m_freelist_len ▸ hi⟩ with size := size % U32 }
      m_freelist_len := by rw [List.length_set]; exact h.m_freelist_len }
  else none

/-- Sum of the `size` fields of the 32 table entries (an unused slot has
size 0 and contributes nothing). -/
def freelist_size_sum (h : PBlobPageHeader) : Nat :=
  (h.m_freelist.map FreelistEntry.size).sum

/-- Number of table entries describing a live free range (size not 0). -/
def live_ranges (h : PBlobPageHeader) : Nat :=
  (h.m_freelist.filter (fun e => decide (e.size ≠ 0))).length

end PBlobPageHeader

/-- A header whose slots hold the ranges `(100 + 10 i, i + 1)`, used to
evaluate the accessors on a table with 32 distinct entries. -/
def sample_header : PBlobPageHeader :=
  { m_num_pages := 0
    m_free_bytes := 528
    m_freelist := (List.range 32).map (fun i => { offset := 100 + 10 * i, size := i + 1 })
    m_freelist_len := by simp }

/-! ## Layout of the packed header and the per-page overhead -/

/-- Names of the data members declared in `PBlobPageHeader` and in its
nested `FreelistEntry`. -/
inductive MemberName where
  | m_num_pages
  | m_free_bytes
  | m_freelist
  | offset
  | size
deriving DecidableEq, Repr

/-- A data member with its `sizeof` and its alignment requirement. -/
structure Member where
  name : MemberName
  size : Nat
  align : Nat
deriving DecidableEq, Repr

/-- Smallest multiple of `a` that is at least `n`. -/
def align_up (n a : Nat) : Nat := (n + a - 1) / a * a

/-- A `uint32_t` member (4 bytes) under pack alignment `pack`: its
alignment is the smaller of its size and `pack`. -/
def uint32_member (pack : Nat) (name : MemberName) : Member :=
  { name := name, size := 4, align := min 4 pack }

/-- Byte offset of member `name` when the members are placed in declaration
order from offset `cur`, each at the next multiple of its alignment. -/
def offsetof_from (name : MemberName) : Nat → List Member → Option Nat
  | _, [] => none
  | cur, m :: ms =>
    if m.name = name then some (align_up cur m.align)
    else offsetof_from name (align_up cur m.align + m.size) ms

/-- Offset just past the last member. -/
def members_end : Nat → List Member → Nat
  | cur, [] => cur
  | cur, m :: ms => members_end (align_up cur m.align + m.size) ms

/-- Alignment of a struct: the largest alignment among its members. -/
def struct_align (ms : List Member) : Nat :=
  (ms.map Member.align).foldl max 1

/-- The `sizeof` of a struct: the end of its last member, rounded up to the struct
alignment. -/
def struct_sizeof (ms : List Member) : Nat :=
  align_up (members_end 0 ms) (struct_align ms)

/-- Members of `struct FreelistEntry`: `uint32_t offset; uint32_t size;` -/
def FreelistEntry_members (pack : Nat) : List Member :=
  [uint32_member pack .offset, uint32_member pack .size]

/-- The data members of `PBlobPageHeader` in declaration order:
`uint32_t m_num_pages; uint32_t m_free_bytes; FreelistEntry m_freelist[32];` -/
def PBlobPageHeader_members (pack : Nat) : List Member :=
  [ uint32_member pack .m_num_pages,
    uint32_member pack .m_free_bytes,
    { name := .m_freelist
      size := 32 * struct_sizeof (FreelistEntry_members pack)
      align := struct_align (FreelistEntry_members pack) } ]

/-- Value of `sizeof(PBlobPageHeader)`; the class is declared between the packing
headers `1base/packstart.h` and `1base/packstop.h`, i.e. byte-packed. -/
def sizeof_PBlobPageHeader : Nat := struct_sizeof (PBlobPageHeader_members 1)

/-- Function `from_page`: the header is `&page->get_payload()[0]`, the address of
element 0 of the payload, given the address of the payload. -/
def from_page (payload : Nat) : Nat := payload + 0

/-- First and last byte address of a 4-byte member at offset `off` of the
header of a page whose payload starts at address `payload`: the header
starts at `from_page payload`. -/
def member_bytes (payload off : Nat) : Nat × Nat :=
  (from_page payload + off, from_page payload + off + 3)

/-- Byte addresses of `m_freelist[i].offset` in the header of the page whose
payload starts at `payload`. -/
def freelist_offset_bytes (pack payload i : Nat) : Option (Nat × Nat) :=
  match offsetof_from .m_freelist 0 (PBlobPageHeader_members pack),
        offsetof_from .offset 0 (FreelistEntry_members pack) with
  | some base, some o =>
    some (member_bytes payload (base + i * struct_sizeof (FreelistEntry_members pack) + o))
  | _, _ => none

/-- Byte addresses of `m_freelist[i].size` in the header of the page whose
payload starts at `payload`. -/
def freelist_size_bytes (pack payload i : Nat) : Option (Nat × Nat) :=
  match offsetof_from .m_freelist 0 (PBlobPageHeader_members pack),
        offsetof_from .size 0 (FreelistEntry_members pack) with
  | some base, some o =>
    some (member_bytes payload (base + i * struct_sizeof (FreelistEntry_members pack) + o))
  | _, _ => none

/-- The enum constant of `DiskBlobManager`:
`kPageOverhead = Page::kSizeofPersistentHeader + sizeof(PBlobPageHeader)`.
`Page::kSizeofPersistentHeader` is declared outside these sources and is a
parameter. -/
def kPageOverhead (kSizeofPersistentHeader : Nat) : Nat :=
  kSizeofPersistentHeader + sizeof_PBlobPageHeader

/-- Modelled from the spec: the usable payload of a blob page is the page
size minus the per-page overhead (the allocation code of
`blob_manager_disk.cc` that computes it is not part of these sources). -/
def usable_payload (page_size kSizeofPersistentHeader : Nat) : Nat :=
  page_size - kPageOverhead kSizeofPersistentHeader

/-- Modelled from the spec: an overflow blob of `bytes` bytes takes
`ceil(bytes / usable_payload)` pages (the allocation code of
`blob_manager_disk.cc` is not part of these sources). -/
def overflow_pages (bytes usable : Nat) : Nat :=
  (bytes + usable - 1) / usable

/-! ## Freelist allocator

`add_to_freelist` and `alloc_from_freelist` are declared in
`blob_manager_disk.h`; their bodies (`blob_manager_disk.cc`) are not part
of these sources.  The definitions below follow section 4.3 of the
specification.  Where the specification leaves a choice open (which of
several equal candidates, the minimum useful fragment), the scan takes the
first candidate in table order and the threshold is a parameter.
-/

/-- Replaces slot `i` of the table. -/
def set_entry (h : PBlobPageHeader) (i : Nat) (e : FreelistEntry) : PBlobPageHeader :=
  { h with
    m_freelist := h.m_freelist.set i e
    m_freelist_len := by rw [List.length_set]; exact h.m_freelist_len }

/-- Subtraction of `uint32_t` values: the difference modulo `2^32`. -/
def sub32 (a b : Nat) : Nat := (a + (U32 - b % U32)) % U32

/-- Modelled from the spec: the scan over all entries that keeps the entry
with the smallest size among those accepted by `ok` (the first such entry
in table order); `blob_manager_disk.cc` is missing.  `i` is the index of the
head of the list, `best` the candidate so far. -/
def scan_smallest (ok : FreelistEntry → Bool) :
    List FreelistEntry → Nat → Option (Nat × FreelistEntry) → Option (Nat × FreelistEntry)
  | [], _, best => best
  | e :: es, i, best =>
    if ok e && (match best with
        | none => true
        | some (_, b) => decide (e.size < b.size)) then
      scan_smallest ok es (i + 1) (some (i, e))
    else scan_smallest ok es (i + 1) best

/-- Index of the first entry accepted by `p`, counting the head as `i`. -/
def first_index (p : FreelistEntry → Bool) : List FreelistEntry → Nat → Option Nat
  | [], _ => none
  | e :: es, i => if p e then some i else first_index p es (i + 1)

/-- Modelled from the spec: best fit, "the entry with the smallest size that
is still >= the requested size", scanning all 32 entries;
`blob_manager_disk.cc` is missing. -/
def best_fit (h : PBlobPageHeader) (size : Nat) : Option (Nat × FreelistEntry) :=
  scan_smallest (fun e => decide (size ≤ e.size)) h.m_freelist 0 none

/-- Modelled from the spec: `alloc_from_freelist(header, size)` of the
missing `blob_manager_disk.cc`.  On a hit the entry's offset is returned; if
the leftover `entry.size - size` is above `threshold` (the minimum useful
fragment) the slot is shrunk in place to the leftover and `free_bytes`
drops by `size`, otherwise the whole entry is consumed and `free_bytes`
drops by the entry's size.  Without a fitting entry no offset is returned. -/
def alloc_from_freelist (threshold : Nat) (h : PBlobPageHeader) (size : Nat) :
    Option Nat × PBlobPageHeader :=
  match best_fit h size with
  | none => (none, h)
  | some (i, e) =>
    if threshold < e.size - size then
      (some e.offset,
        PBlobPageHeader.set_free_bytes
          (set_entry h i { offset := (e.offset + size) % U32, size := e.size - size })
          (sub32 (PBlobPageHeader.get_free_bytes h) size))
    else
      (some e.offset,
        PBlobPageHeader.set_free_bytes
          (set_entry h i { offset := 0, size := 0 })
          (sub32 (PBlobPageHeader.get_free_bytes h) e.size))

/-- Where `add_to_freelist` puts a new range. -/
inductive placement where
  | empty_slot (i : Nat)
  | merge (i : Nat) (e : FreelistEntry)
  | evict (i : Nat) (e : FreelistEntry)
  | nowhere
deriving DecidableEq, Repr

/-- Modelled from the spec: "contiguous offset boundaries": the entry ends
where the new range starts, or the new range ends where the entry starts;
`blob_manager_disk.cc` is missing. -/
def adjacent (offset size : Nat) (e : FreelistEntry) : Bool :=
  decide (e.offset + e.size = offset) || decide (offset + size = e.offset)

/-- Modelled from the spec: the placement policy of `add_to_freelist` of the
missing `blob_manager_disk.cc`: an empty slot (size 0) if one exists;
otherwise, the table being full, an adjacent entry to merge with; otherwise
the smallest entry, which is evicted. -/
def find_placement (h : PBlobPageHeader) (offset size : Nat) : placement :=
  match first_index (fun e => decide (e.size = 0)) h.m_freelist 0 with
  | some i => .empty_slot i
  | none =>
    match scan_smallest (adjacent offset size) h.m_freelist 0 none with
    | some (i, e) => .merge i e
    | none =>
      match scan_smallest (fun _ => true) h.m_freelist 0 none with
      | some (i, e) => .evict i e
      | none => .nowhere

/-- Modelled from the spec: `add_to_freelist(header, offset, size)` of the
missing `blob_manager_disk.cc`: the range is stored as `find_placement`
says, and `free_bytes` is incremented by `size` on every path. -/
def add_to_freelist (h : PBlobPageHeader) (offset size : Nat) : PBlobPageHeader :=
  let h1 : PBlobPageHeader :=
    match find_placement h offset size with
    | .empty_slot i => set_entry h i { offset := offset % U32, size := size % U32 }
    | .merge i e =>
      if e.offset + e.size = offset then
        set_entry h i { offset := e.offset, size := (e.size + size) % U32 }
      else
        set_entry h i { offset := offset % U32, size := (e.size + size) % U32 }
    | .evict i _ => set_entry h i { offset := offset % U32, size := size % U32 }
    | .nowhere => h
  PBlobPageHeader.set_free_bytes h1 (PBlobPageHeader.get_free_bytes h1 + size)

/-- Size of the entry that `add_to_freelist(header, offset, size)` evicts
(0 if it evicts none). -/
def evicted_size (h : PBlobPageHeader) (offset size : Nat) : Nat :=
  match find_placement h offset size with
  | .evict _ e => e.size
  | _ => 0

/-- A call on the freelist of one page. -/
inductive freelist_op where
  | add (offset size : Nat)
  | alloc (size : Nat)
deriving DecidableEq, Repr

/-- Runs one call. -/
def apply_op (threshold : Nat) (h : PBlobPageHeader) : freelist_op → PBlobPageHeader
  | .add offset size => add_to_freelist h offset size
  | .alloc size => (alloc_from_freelist threshold h size).2

/-- Runs a sequence of calls, first to last. -/
def run_ops (threshold : Nat) (h : PBlobPageHeader) (ops : List freelist_op) :
    PBlobPageHeader :=
  ops.foldl (apply_op threshold) h

/-- Total size of the entries evicted while running `ops` from `h`. -/
def wasted (threshold : Nat) : PBlobPageHeader → List freelist_op → Nat
  | _, [] => 0
  | h, .add offset size :: ops =>
    evicted_size h offset size + wasted threshold (add_to_freelist h offset size) ops
  | h, .alloc size :: ops =>
    wasted threshold (alloc_from_freelist threshold h size).2 ops

/-- Thirty-three frees of 10 bytes at offsets 0, 100, ..., 3200: no two are
adjacent, so the last one finds the table full and evicts an entry. -/
def thirty_three_frees : List freelist_op :=
  (List.range 33).map (fun i => freelist_op.add (100 * i) 10)

/-- Two frees and one allocation that never fill the table. -/
def three_calls : List freelist_op :=
  [freelist_op.add 0 10, freelist_op.add 100 20, freelist_op.alloc 5]

/-! ## B-tree enumeration (`btree_enum.c`)

Pointers are followed through explicit values: a page carries its node, the
backend carries its database.  `db_fetch_page` is declared in `db.h` and
defined outside these sources; it is a parameter `fetch` that maps the
database state, an address and the flags to the new database state and the
page found (`none` for a null pointer).  The callback `cb` receives an event
and the caller's context and yields the new context; it only reads the
values it is handed.  Fuel bounds the two `while` loops, which follow
`ptr_left` and `right` links of arbitrary pages; `none` means out of fuel.
-/

/-- The `btree_node_t` members read by the enumeration, through the macros
`btree_node_get_count`, `btree_node_get_ptr_left`, `btree_node_get_right`
and `btree_node_get_key` (key slot `i` of the node). -/
structure btree_node_t (Key : Type) where
  _count : Nat
  _ptr_left : Nat
  _right : Nat
  _entries : Nat → Key

/-- A `ham_page_t`: its address and the B-tree node in its payload
(`ham_page_get_btree_node`). -/
structure ham_page_t (Key : Type) where
  _self : Nat
  _node : btree_node_t Key

/-- The `struct ham_db_t` of `db.h`: the last error code `_error`; the other
members (device, cache, ...) are only used by `db_fetch_page` and are kept
as one value of type `S`. -/
structure ham_db_t (S : Type) where
  _error : Int
  _rest : S

/-- The `ham_btree_t` members read by the enumeration (`btree_get_db`,
`btree_get_rootpage`). -/
structure ham_btree_t (S : Type) where
  _db : ham_db_t S
  _rootpage : Nat

/-- Macro `#define db_get_error(db) (db)->_error` -/
def db_get_error {S : Type} (db : ham_db_t S) : Int := db._error

/-- The four callback events with the values passed as `param1` and
`param2`: `ENUM_EVENT_DESCEND` (the level, 0), `ENUM_EVENT_PAGE_START` and
`ENUM_EVENT_PAGE_STOP` (the page, `is_leaf`), `ENUM_EVENT_ITEM` (the key,
the node's count). -/
inductive enum_event (Key : Type) where
  | ENUM_EVENT_DESCEND (level : Nat)
  | ENUM_EVENT_PAGE_START (page : ham_page_t Key) (is_leaf : Nat)
  | ENUM_EVENT_PAGE_STOP (page : ham_page_t Key) (is_leaf : Nat)
  | ENUM_EVENT_ITEM (bte : Key) (count : Nat)

/-- Outcome of an enumeration: the returned `ham_status_t`, the context as
the callback left it, and the database state. -/
structure enum_result (S σ : Type) where
  st : Int
  context : σ
  db : ham_db_t S

/-- A callback that appends every event it receives to a log. -/
def record_event {Key : Type} (e : enum_event Key) (log : List (enum_event Key)) :
    List (enum_event Key) :=
  log ++ [e]

/-- Function `my_enumerate_page`: one `PAGE_START`, one `ITEM` per `i = 0 .. count-1`,
one `PAGE_STOP`; returns 0.  `level` and `sibcount` are not used by the
body. -/
def my_enumerate_page {Key σ : Type} (page : ham_page_t Key) (_level _sibcount : Nat)
    (cb : enum_event Key → σ → σ) (context : σ) : Int × σ :=
  let node := page._node
  let is_leaf : Nat := if node._ptr_left ≠ 0 then 0 else 1
  let count := node._count
  let c1 := cb (.ENUM_EVENT_PAGE_START page is_leaf) context
  let c2 := (List.range count).foldl
    (fun c i => cb (.ENUM_EVENT_ITEM (node._entries i) count) c) c1
  let c3 := cb (.ENUM_EVENT_PAGE_STOP page is_leaf) c2
  (0, c3)

/-- Function `my_enumerate_level`: enumerate `page`, then follow the `right` links.
A null page from `db_fetch_page` ends the `while (page)` loop with status
0. -/
def my_enumerate_level {Key S σ : Type}
    (fetch : ham_db_t S → Nat → Nat → ham_db_t S × Option (ham_page_t Key))
    (cb : enum_event Key → σ → σ) :
    Nat → ham_db_t S → ham_page_t Key → Nat → Nat → σ → Option (enum_result S σ)
  | 0, _, _, _, _, _ => none
  | fuel + 1, db, page, level, count, context =>
    let r := my_enumerate_page page level count cb context
    if r.1 ≠ 0 then some { st := r.1, context := r.2, db := db }
    else
      let node := page._node
      if node._right ≠ 0 then
        match fetch db node._right 0 with
        | (db1, some next) =>
          my_enumerate_level fetch cb fuel db1 next level ((count + 1) % U32) r.2
        | (db1, none) => some { st := 0, context := r.2, db := db1 }
      else some { st := 0, context := r.2, db := db }

/-- The `while (page)` loop of `btree_enumerate`: a `DESCEND` event, the
level of `page`, then the page at `ptr_left` one level down. -/
def btree_enumerate_loop {Key S σ : Type}
    (fetch : ham_db_t S → Nat → Nat → ham_db_t S × Option (ham_page_t Key))
    (cb : enum_event Key → σ → σ) :
    Nat → ham_db_t S → ham_page_t Key → Nat → σ → Option (enum_result S σ)
  | 0, _, _, _, _ => none
  | fuel + 1, db, page, level, context =>
    let node := page._node
    let ptr_left := node._ptr_left
    let c1 := cb (.ENUM_EVENT_DESCEND level) context
    match my_enumerate_level fetch cb (fuel + 1) db page level 0 c1 with
    | none => none
    | some r =>
      if r.st ≠ 0 then some r
      else if ptr_left ≠ 0 then
        match fetch r.db ptr_left 0 with
        | (db1, some next) =>
          btree_enumerate_loop fetch cb fuel db1 next ((level + 1) % U32) r.context
        | (db1, none) => some { st := 0, context := r.context, db := db1 }
      else some { st := 0, context := r.context, db := r.db }

/-- Function `btree_enumerate`: fetch the root page; if that fails return
`db_get_error(db)`, otherwise run the loop from level 0.  (The two
`ham_assert` lines compile to nothing in a release build.) -/
def btree_enumerate {Key S σ : Type}
    (fetch : ham_db_t S → Nat → Nat → ham_db_t S × Option (ham_page_t Key))
    (fuel : Nat) (be : ham_btree_t S) (cb : enum_event Key → σ → σ) (context : σ) :
    Option (enum_result S σ) :=
  let db := be._db
  match fetch db be._rootpage 0 with
  | (db1, none) => some { st := db_get_error db1, context := context, db := db1 }
  | (db1, some page) => btree_enumerate_loop fetch cb fuel db1 page 0 context

/-- The events `my_enumerate_page` is expected to emit for `page`. -/
def page_events {Key : Type} (page : ham_page_t Key) : List (enum_event Key) :=
  let is_leaf : Nat := if page._node._ptr_left = 0 then 1 else 0
  [enum_event.ENUM_EVENT_PAGE_START page is_leaf]
    ++ (List.range page._node._count).map
        (fun i => enum_event.ENUM_EVENT_ITEM (page._node._entries i) page._node._count)
    ++ [enum_event.ENUM_EVENT_PAGE_STOP page is_leaf]

/-- A database whose only state is its error code; used with `no_pages`. -/
def failing_db : ham_db_t Unit := { _error := 0, _rest := () }

/-- A `db_fetch_page` that finds no page and sets the error code to -20. -/
def no_pages (db : ham_db_t Unit) (_address _flags : Nat) :
    ham_db_t Unit × Option (ham_page_t Nat) :=
  ({ db with _error := -20 }, none)

/-- A leaf page at address 4096 with three keys 10, 11, 12. -/
def sample_leaf : ham_page_t Nat :=
  { _self := 4096
    _node := { _count := 3, _ptr_left := 0, _right := 0, _entries := fun i => 10 + i } }

/-! ### Shape of a tree and the events expected for it

A level is its first page together with the pages that follow it on the
right-sibling chain.  A tree is the root level and the list of the levels
below it, each starting at the page that `ptr_left` of the first page of
the level above points to.
-/

/-- Fetching `address` yields `page`, whatever the state of the database. -/
def fetches {Key S : Type}
    (fetch : ham_db_t S → Nat → Nat → ham_db_t S × Option (ham_page_t Key))
    (address : Nat) (page : ham_page_t Key) : Prop :=
  ∀ db, (fetch db address 0).2 = some page

/-- The pages `sibs` are the right-sibling chain of `page`: every `right`
link but the last is not 0 and fetches the next page, and the last page has
`right` 0. -/
def chain_from {Key S : Type}
    (fetch : ham_db_t S → Nat → Nat → ham_db_t S × Option (ham_page_t Key))
    (page : ham_page_t Key) : List (ham_page_t Key) → Prop
  | [] => page._node._right = 0
  | q :: rest =>
    page._node._right ≠ 0 ∧ fetches fetch page._node._right q ∧ chain_from fetch q rest

/-- The level of `page` with siblings `sibs`, and below it the levels
`lower`: every level is a sibling chain, `ptr_left` of the first page of a
level fetches the first page of the next one, and `ptr_left` of the first
page of the last level is 0. -/
def levels_from {Key S : Type}
    (fetch : ham_db_t S → Nat → Nat → ham_db_t S × Option (ham_page_t Key))
    (page : ham_page_t Key) (sibs : List (ham_page_t Key)) :
    List (ham_page_t Key × List (ham_page_t Key)) → Prop
  | [] => chain_from fetch page sibs ∧ page._node._ptr_left = 0
  | (q, qs) :: rest =>
    chain_from fetch page sibs ∧ page._node._ptr_left ≠ 0
      ∧ fetches fetch page._node._ptr_left q ∧ levels_from fetch q qs rest

/-- Number of pages of a tree. -/
def pages_count {Key : Type} (sibs : List (ham_page_t Key)) :
    List (ham_page_t Key × List (ham_page_t Key)) → Nat
  | [] => sibs.length + 1
  | (_, qs) :: rest => sibs.length + 1 + pages_count qs rest

/-- The events of the pages of a chain, page after page. -/
def chain_events {Key : Type} : List (ham_page_t Key) → List (enum_event Key)
  | [] => []
  | p :: ps => page_events p ++ chain_events ps

/-- The events expected for a tree whose first level has number `k`: for
every level one `DESCEND` with the number of the level, then the pages of
the level in chain order. -/
def tree_events {Key : Type} (k : Nat) (page : ham_page_t Key)
    (sibs : List (ham_page_t Key)) :
    List (ham_page_t Key × List (ham_page_t Key)) → List (enum_event Key)
  | [] => enum_event.ENUM_EVENT_DESCEND k :: chain_events (page :: sibs)
  | (q, qs) :: rest =>
    enum_event.ENUM_EVENT_DESCEND k :: chain_events (page :: sibs)
      ++ tree_events (k + 1) q qs rest

/-- The events as `tree_events`, with the level counted as the `ham_u32_t`
variable `level` counts it: the successor is taken modulo `2^32`. -/
def tree_events_u32 {Key : Type} (k : Nat) (page : ham_page_t Key)
    (sibs : List (ham_page_t Key)) :
    List (ham_page_t Key × List (ham_page_t Key)) → List (enum_event Key)
  | [] => enum_event.ENUM_EVENT_DESCEND k :: chain_events (page :: sibs)
  | (q, qs) :: rest =>
    enum_event.ENUM_EVENT_DESCEND k :: chain_events (page :: sibs)
      ++ tree_events_u32 ((k + 1) % U32) q qs rest

/-- The levels carried by the `DESCEND` events of a log, in order. -/
def descend_levels {Key : Type} : List (enum_event Key) → List Nat
  | [] => []
  | enum_event.ENUM_EVENT_DESCEND level :: es => level :: descend_levels es
  | _ :: es => descend_levels es

/-- The root of the sample tree, at address 1: one key, first child at
address 2, no sibling. -/
def sample_root : ham_page_t Nat :=
  { _self := 1
    _node := { _count := 1, _ptr_left := 2, _right := 0, _entries := fun _ => 50 } }

/-- The first leaf of the sample tree, at address 2: keys 10 and 11, right
sibling at address 3. -/
def sample_leaf_a : ham_page_t Nat :=
  { _self := 2
    _node := { _count := 2, _ptr_left := 0, _right := 3, _entries := fun i => 10 + i } }

/-- The second leaf of the sample tree, at address 3: key 60, no sibling. -/
def sample_leaf_b : ham_page_t Nat :=
  { _self := 3
    _node := { _count := 1, _ptr_left := 0, _right := 0, _entries := fun _ => 60 } }

/-- A `db_fetch_page` over the three pages of the sample tree. -/
def sample_fetch (db : ham_db_t Unit) (address _flags : Nat) :
    ham_db_t Unit × Option (ham_page_t Nat) :=
  match address with
  | 1 => (db, some sample_root)
  | 2 => (db, some sample_leaf_a)
  | 3 => (db, some sample_leaf_b)
  | _ => ({ db with _error := -20 }, none)

/-! ## Theorems: the page header accessors -/

namespace PBlobPageHeader

theorem get_freelist_offset_of_lt (h : PBlobPageHeader) {i : Nat} (hi : i < 32) :
    get_freelist_offset h i
      = some (h.m_freelist.get ⟨i, h.m_freelist_len ▸ hi⟩).offset := by
  simp [get_freelist_offset, hi]

theorem get_freelist_size_of_lt (h : PBlobPageHeader) {i : Nat} (hi : i < 32) :
    get_freelist_size h i
      = some (h.m_freelist.get ⟨i, h.m_freelist_len ▸ hi⟩).size := by
  simp [get_freelist_size, hi]

end PBlobPageHeader

open PBlobPageHeader

/-- C1: after `initialize()` the header is all zero: `get_num_pages()` and
`get_free_bytes()` are 0, every slot `i < 32` has offset 0 and size 0, and
so `free_bytes` equals the sum of the freelist sizes. -/
theorem initialize_all_zero (h : PBlobPageHeader) :
    get_num_pages (initialize_header h) = 0
    ∧ get_free_bytes (initialize_header h) = 0
    ∧ (∀ i, i < 32 →
        get_freelist_offset (initialize_header h) i = some 0
        ∧ get_freelist_size (initialize_header h) i = some 0)
    ∧ get_free_bytes (initialize_header h) = freelist_size_sum (initialize_header h) := by
  refine ⟨rfl, rfl, ?_, ?_⟩
  · intro i hi
    rw [get_freelist_offset_of_lt _ hi, get_freelist_size_of_lt _ hi]
    simp only [initialize_header, List.get_eq_getElem, List.getElem_replicate, and_self]
  · simp only [get_free_bytes, freelist_size_sum, initialize_header, List.map_replicate,
      List.sum_replicate, smul_eq_mul, mul_zero]

/-- Evaluation of C1 on the sample header at slot 31. -/
theorem initialize_all_zero_witness :
    31 < 32
    ∧ get_freelist_offset (initialize_header sample_header) 31 = some 0
    ∧ get_freelist_size (initialize_header sample_header) 31 = some 0 :=
  ⟨by decide, (initialize_all_zero sample_header).2.2.1 31 (by decide)⟩

/-- C4: `get_freelist_entries()` is 32 for every header, so at most 32
free ranges are live; and for every `i < get_freelist_entries()` the four
freelist accessors address slot `i` of the table (they never reach the
out-of-range branch). -/
theorem freelist_entries_is_32 (h : PBlobPageHeader) :
    get_freelist_entries h = 32
    ∧ live_ranges h ≤ 32
    ∧ ∀ i v, i < get_freelist_entries h →
        i < h.m_freelist.length
        ∧ (get_freelist_offset h i).isSome = true
        ∧ (get_freelist_size h i).isSome = true
        ∧ (set_freelist_offset h i v).isSome = true
        ∧ (set_freelist_size h i v).isSome = true := by
  refine ⟨rfl, ?_, ?_⟩
  · unfold live_ranges
    calc (h.m_freelist.filter (fun e => decide (e.size ≠ 0))).length
        ≤ h.m_freelist.length := List.length_filter_le _ _
      _ = 32 := h.m_freelist_len
  · intro i v hi
    have hi32 : i < 32 := hi
    refine ⟨h.m_freelist_len ▸ hi32, ?_, ?_, ?_, ?_⟩
    · simp [get_freelist_offset, hi32]
    · simp [get_freelist_size, hi32]
    · simp [set_freelist_offset, hi32]
    · simp [set_freelist_size, hi32]

/-- Evaluation of C4 on the sample header at the last slot. -/
theorem freelist_entries_is_32_witness :
    31 < get_freelist_entries sample_header
    ∧ (get_freelist_offset sample_header 31).isSome = true
    ∧ (set_freelist_size sample_header 31 7).isSome = true :=
  have w := (freelist_entries_is_32 sample_header).2.2 31 7 (by decide)
  ⟨by decide, w.2.1, w.2.2.2.2⟩

theorem get_offset_set_offset (h h1 : PBlobPageHeader) (i v j : Nat)
    (e : set_freelist_offset h i v = some h1) :
    get_freelist_offset h1 j
      = if j = i then some (v % U32) else get_freelist_offset h j := by
  unfold set_freelist_offset at e
  split at e
  · rename_i hi
    cases e
    unfold get_freelist_offset
    by_cases hj : j < 32
    · by_cases hji : j = i
      · subst hji
        simp [hj, List.getElem_set]
      · have hij : ¬ i = j := fun c => hji c.symm
        simp [hj, hji, hij, List.getElem_set]
    · have hji : ¬ j = i := fun c => hj (c ▸ hi)
      simp [hj, hji]
  · cases e

theorem get_size_set_offset (h h1 : PBlobPageHeader) (i v j : Nat)
    (e : set_freelist_offset h i v = some h1) :
    get_freelist_size h1 j = get_freelist_size h j := by
  unfold set_freelist_offset at e
  split at e
  · rename_i hi
    cases e
    unfold get_freelist_size
    by_cases hj : j < 32
    · by_cases hji : i = j
      · subst hji
        simp [hj, List.getElem_set]
      · simp [hj, hji, List.getElem_set]
    · simp [hj]
  · cases e

theorem get_size_set_size (h h1 : PBlobPageHeader) (i v j : Nat)
    (e : set_freelist_size h i v = some h1) :
    get_freelist_size h1 j
      = if j = i then some (v % U32) else get_freelist_size h j := by
  unfold set_freelist_size at e
  split at e
  · rename_i hi
    cases e
    unfold get_freelist_size
    by_cases hj : j < 32
    · by_cases hji : j = i
      · subst hji
        simp [hj, List.getElem_set]
      · have hij : ¬ i = j := fun c => hji c.symm
        simp [hj, hji, hij, List.getElem_set]
    · have hji : ¬ j = i := fun c => hj (c ▸ hi)
      simp [hj, hji]
  · cases e

theorem get_offset_set_size (h h1 : PBlobPageHeader) (i v j : Nat)
    (e : set_freelist_size h i v = some h1) :
    get_freelist_offset h1 j = get_freelist_offset h j := by
  unfold set_freelist_size at e
  split at e
  · rename_i hi
    cases e
    unfold get_freelist_offset
    by_cases hj : j < 32
    · by_cases hji : i = j
      · subst hji
        simp [hj, List.getElem_set]
      · simp [hj, hji, List.getElem_set]
    · simp [hj]
  · cases e

theorem counters_set_offset (h h1 : PBlobPageHeader) (i v : Nat)
    (e : set_freelist_offset h i v = some h1) :
    get_num_pages h1 = get_num_pages h ∧ get_free_bytes h1 = get_free_bytes h := by
  unfold set_freelist_offset at e
  split at e
  · cases e; exact ⟨rfl, rfl⟩
  · cases e

theorem counters_set_size (h h1 : PBlobPageHeader) (i v : Nat)
    (e : set_freelist_size h i v = some h1) :
    get_num_pages h1 = get_num_pages h ∧ get_free_bytes h1 = get_free_bytes h := by
  unfold set_freelist_size at e
  split at e
  · cases e; exact ⟨rfl, rfl⟩
  · cases e

theorem setters_defined_of_lt (h : PBlobPageHeader) (i v : Nat) (hi : i < 32) :
    (set_freelist_offset h i v).isSome = true
    ∧ (set_freelist_size h i v).isSome = true := by
  constructor
  · simp [set_freelist_offset, hi]
  · simp [set_freelist_size, hi]

/-- C9: each setter changes exactly the field it names.  For every header,
every slot `i < 32` and every 32-bit value `v`: after `set_num_pages(v)`,
`set_free_bytes(v)`, `set_freelist_offset(i, v)` or `set_freelist_size(i, v)`
the matching getter returns `v`, and the other counter, the other half of
slot `i` and both halves of every slot `j != i` read as before. -/
theorem setters_frame (h : PBlobPageHeader) (i v : Nat) (hi : i < 32) (hv : v < U32) :
    (get_num_pages (set_num_pages h v) = v
      ∧ get_free_bytes (set_num_pages h v) = get_free_bytes h
      ∧ ∀ j, get_freelist_offset (set_num_pages h v) j = get_freelist_offset h j
          ∧ get_freelist_size (set_num_pages h v) j = get_freelist_size h j)
    ∧ (get_free_bytes (set_free_bytes h v) = v
      ∧ get_num_pages (set_free_bytes h v) = get_num_pages h
      ∧ ∀ j, get_freelist_offset (set_free_bytes h v) j = get_freelist_offset h j
          ∧ get_freelist_size (set_free_bytes h v) j = get_freelist_size h j)
    ∧ (∃ h1, set_freelist_offset h i v = some h1
      ∧ get_freelist_offset h1 i = some v
      ∧ get_freelist_size h1 i = get_freelist_size h i
      ∧ get_num_pages h1 = get_num_pages h
      ∧ get_free_bytes h1 = get_free_bytes h
      ∧ ∀ j, j ≠ i → get_freelist_offset h1 j = get_freelist_offset h j
          ∧ get_freelist_size h1 j = get_freelist_size h j)
    ∧ (∃ h1, set_freelist_size h i v = some h1
      ∧ get_freelist_size h1 i = some v
      ∧ get_freelist_offset h1 i = get_freelist_offset h i
      ∧ get_num_pages h1 = get_num_pages h
      ∧ get_free_bytes h1 = get_free_bytes h
      ∧ ∀ j, j ≠ i → get_freelist_offset h1 j = get_freelist_offset h j
          ∧ get_freelist_size h1 j = get_freelist_size h j) := by
  have hmod : v % U32 = v := Nat.mod_eq_of_lt hv
  refine ⟨⟨?_, rfl, fun j => ⟨rfl, rfl⟩⟩, ⟨?_, rfl, fun j => ⟨rfl, rfl⟩⟩, ?_, ?_⟩
  · simp only [get_num_pages, set_num_pages, hmod]
  · simp only [get_free_bytes, set_free_bytes, hmod]
  · obtain ⟨h1, e⟩ := Option.isSome_iff_exists.mp
      ((setters_defined_of_lt h i v hi).1)
    refine ⟨h1, e, ?_, get_size_set_offset h h1 i v i e,
      (counters_set_offset h h1 i v e).1, (counters_set_offset h h1 i v e).2, ?_⟩
    · rw [get_offset_set_offset h h1 i v i e, if_pos rfl, hmod]
    · intro j hj
      exact ⟨by rw [get_offset_set_offset h h1 i v j e, if_neg hj],
        get_size_set_offset h h1 i v j e⟩
  · obtain ⟨h1, e⟩ := Option.isSome_iff_exists.mp
      ((setters_defined_of_lt h i v hi).2)
    refine ⟨h1, e, ?_, get_offset_set_size h h1 i v i e,
      (counters_set_size h h1 i v e).1, (counters_set_size h h1 i v e).2, ?_⟩
    · rw [get_size_set_size h h1 i v i e, if_pos rfl, hmod]
    · intro j hj
      exact ⟨get_offset_set_size h h1 i v j e,
        by rw [get_size_set_size h h1 i v j e, if_neg hj]⟩

/-- Evaluation of C9 on the sample header: writing 7 into the offset of
slot 3 is read back and leaves the size of slot 3 at 4. -/
theorem setters_frame_witness :
    3 < 32 ∧ 7 < U32
    ∧ ∃ h1, set_freelist_offset sample_header 3 7 = some h1
      ∧ get_freelist_offset h1 3 = some 7
      ∧ get_freelist_size h1 3 = some 4 :=
  ⟨by decide, by decide,
    match (setters_frame sample_header 3 7 (by decide) (by decide)).2.2.1 with
    | ⟨h1, e, ho, hs, _⟩ => ⟨h1, e, ho, hs.trans (by decide)⟩⟩

/-! ## Theorems: layout and page overhead -/

/-- C2: the header is 264 = 8 + 32*8 bytes and starts at byte 0 of the page
payload: for every payload address `from_page` returns that very address.
Counted from the start of the payload, `num_pages` is at bytes 0..3,
`free_bytes` at bytes 4..7, and for every `i < 32` entry `i` has its offset
at bytes 8+8i..11+8i and its size at bytes 12+8i..15+8i, with no padding,
under every pack alignment (1, 2, 4, 8 or 16) and for every payload
address; `kPageOverhead` is the persistent header size plus 264. -/
theorem header_layout (pack : Nat) (hp : pack ∈ [1, 2, 4, 8, 16]) :
    struct_sizeof (PBlobPageHeader_members pack) = 264
    ∧ sizeof_PBlobPageHeader = 8 + 32 * 8
    ∧ (∀ payload, from_page payload = payload)
    ∧ (∀ payload,
        (offsetof_from .m_num_pages 0 (PBlobPageHeader_members pack)).map
            (member_bytes payload)
          = some (payload + 0, payload + 3))
    ∧ (∀ payload,
        (offsetof_from .m_free_bytes 0 (PBlobPageHeader_members pack)).map
            (member_bytes payload)
          = some (payload + 4, payload + 7))
    ∧ (∀ payload i, i < 32 →
        freelist_offset_bytes pack payload i
          = some (payload + (8 + 8 * i), payload + (11 + 8 * i))
        ∧ freelist_size_bytes pack payload i
          = some (payload + (12 + 8 * i), payload + (15 + 8 * i)))
    ∧ ∀ kSizeofPersistentHeader,
        kPageOverhead kSizeofPersistentHeader = kSizeofPersistentHeader + 264 := by
  have hcases : pack = 1 ∨ pack = 2 ∨ pack = 4 ∨ pack = 8 ∨ pack = 16 := by
    simpa using hp
  have hsz : sizeof_PBlobPageHeader = 264 := by decide
  have e8 : ∀ p, p = 1 ∨ p = 2 ∨ p = 4 ∨ p = 8 ∨ p = 16 →
      offsetof_from .m_num_pages 0 (PBlobPageHeader_members p) = some 0
      ∧ offsetof_from .m_free_bytes 0 (PBlobPageHeader_members p) = some 4
      ∧ offsetof_from .m_freelist 0 (PBlobPageHeader_members p) = some 8
      ∧ offsetof_from .offset 0 (FreelistEntry_members p) = some 0
      ∧ offsetof_from .size 0 (FreelistEntry_members p) = some 4
      ∧ struct_sizeof (FreelistEntry_members p) = 8 := by
    intro p hp1
    rcases hp1 with h | h | h | h | h <;> subst h <;> decide
  obtain ⟨n, f, b, o, s, z⟩ := e8 pack hcases
  have hfrom : ∀ payload, from_page payload = payload := fun payload => Nat.add_zero payload
  refine ⟨?_, hsz, hfrom, ?_, ?_, ?_, ?_⟩
  · rcases hcases with h | h | h | h | h <;> subst h <;> decide
  · intro payload
    rw [n]
    simp only [Option.map_some', member_bytes, hfrom]
  · intro payload
    rw [f]
    simp only [Option.map_some', member_bytes, hfrom]
  · intro payload i _
    simp only [freelist_offset_bytes, freelist_size_bytes, b, o, s, z, member_bytes, hfrom]
    constructor
    · congr 1; ext <;> simp <;> omega
    · congr 1; ext <;> simp <;> omega
  · intro H
    unfold kPageOverhead
    rw [hsz]

/-- Evaluation of C2 for the byte-packed layout at the last slot, for a
payload that starts at address 16 and for one that starts at address 0. -/
theorem header_layout_witness :
    1 ∈ [1, 2, 4, 8, 16] ∧ 31 < 32
    ∧ from_page 16 = 16
    ∧ (freelist_offset_bytes 1 16 31 = some (272, 275)
      ∧ freelist_size_bytes 1 16 31 = some (276, 279))
    ∧ (freelist_offset_bytes 1 0 31 = some (256, 259)
      ∧ freelist_size_bytes 1 0 31 = some (260, 263)) :=
  ⟨by decide, by decide,
    (header_layout 1 (by decide)).2.2.1 16,
    (header_layout 1 (by decide)).2.2.2.2.2.1 16 31 (by decide),
    (header_layout 1 (by decide)).2.2.2.2.2.1 0 31 (by decide)⟩

theorem kPageOverhead_eq (H : Nat) : kPageOverhead H = H + 264 := by
  have hsz : sizeof_PBlobPageHeader = 264 := by decide
  unfold kPageOverhead
  rw [hsz]

/-- C3 fails as stated: whatever the persistent header size is, a 4096-byte
page minus `kPageOverhead` is never 4072 bytes (the header alone takes 264). -/
theorem usable_payload_never_4072 :
    ¬ ∃ kSizeofPersistentHeader, usable_payload 4096 kSizeofPersistentHeader = 4072 := by
  rintro ⟨H, hH⟩
  unfold usable_payload at hH
  rw [kPageOverhead_eq] at hH
  omega

/-- C3 (amended): with 4096-byte pages the usable payload is
`4096 - kPageOverhead = 3832 - H` bytes for a persistent page header of `H`
bytes, hence at most 3832; and for every `H <= 498` a 10000-byte blob needs
`ceil(10000 / (3832 - H)) = 3` pages. -/
theorem usable_payload_4096 (H : Nat) (hH : H ≤ 498) :
    usable_payload 4096 H = 3832 - H
    ∧ usable_payload 4096 H ≤ 3832
    ∧ overflow_pages 10000 (usable_payload 4096 H) = 3 := by
  have hu : usable_payload 4096 H = 3832 - H := by
    unfold usable_payload
    rw [kPageOverhead_eq]
    omega
  refine ⟨hu, by omega, ?_⟩
  rw [hu]
  unfold overflow_pages
  apply Nat.div_eq_of_lt_le <;> omega

/-- Evaluation of the amended C3 for a 16-byte persistent page header:
3816 usable bytes and 3 pages. -/
theorem usable_payload_4096_witness :
    16 ≤ 498
    ∧ usable_payload 4096 16 = 3816
    ∧ overflow_pages 10000 (usable_payload 4096 16) = 3 :=
  ⟨by decide, (usable_payload_4096 16 (by decide)).1, (usable_payload_4096 16 (by decide)).2.2⟩

/-! ## Theorems: B-tree enumeration -/

theorem foldl_record_event {Key : Type} (l acc : List (enum_event Key)) :
    l.foldl (fun c e => record_event e c) acc = acc ++ l := by
  induction l generalizing acc with
  | nil => simp
  | cons e l ih =>
    rw [List.foldl_cons, ih]
    simp [record_event]

theorem my_enumerate_page_fold {Key σ : Type} (page : ham_page_t Key) (level sibcount : Nat)
    (cb : enum_event Key → σ → σ) (context : σ) :
    my_enumerate_page page level sibcount cb context
      = (0, (page_events page).foldl (fun c e => cb e c) context) := by
  unfold my_enumerate_page page_events
  by_cases hl : page._node._ptr_left = 0
  · simp [hl, List.foldl_append, List.foldl_map]
  · simp [hl, List.foldl_append, List.foldl_map]

/-- C8: if fetching the root page fails, `btree_enumerate` returns the
database's error code as it stands after the failed fetch and never calls
the callback: the context is returned untouched, and a recording callback
has logged nothing. -/
theorem btree_enumerate_root_fetch_fails {Key S σ : Type}
    (fetch : ham_db_t S → Nat → Nat → ham_db_t S × Option (ham_page_t Key))
    (fuel : Nat) (be : ham_btree_t S) (cb : enum_event Key → σ → σ) (context : σ)
    (hnull : (fetch be._db be._rootpage 0).2 = none) :
    btree_enumerate fetch fuel be cb context
      = some { st := db_get_error (fetch be._db be._rootpage 0).1
               context := context
               db := (fetch be._db be._rootpage 0).1 }
    ∧ (btree_enumerate fetch fuel be record_event []).map enum_result.context
      = some [] := by
  have key : ∀ (τ : Type) (f : enum_event Key → τ → τ) (c : τ),
      btree_enumerate fetch fuel be f c
        = some { st := db_get_error (fetch be._db be._rootpage 0).1
                 context := c
                 db := (fetch be._db be._rootpage 0).1 } := by
    intro τ f c
    unfold btree_enumerate
    dsimp only
    generalize fetch be._db be._rootpage 0 = r at hnull
    obtain ⟨db1, p⟩ := r
    simp only at hnull
    subst hnull
    rfl
  refine ⟨key σ cb context, ?_⟩
  rw [key]
  rfl

/-- Evaluation of C8 on a database without pages: the status is the error
code -20 set by the failed fetch, and the log is empty. -/
theorem btree_enumerate_root_fetch_fails_witness :
    (no_pages failing_db 4096 0).2 = none
    ∧ (btree_enumerate no_pages 5 { _db := failing_db, _rootpage := 4096 }
        record_event []).map enum_result.st = some (-20)
    ∧ (btree_enumerate no_pages 5 { _db := failing_db, _rootpage := 4096 }
        record_event []).map enum_result.context = some [] :=
  ⟨rfl,
    congrArg (Option.map enum_result.st)
      (btree_enumerate_root_fetch_fails no_pages 5
        { _db := failing_db, _rootpage := 4096 } record_event [] rfl).1,
    (btree_enumerate_root_fetch_fails no_pages 5
        { _db := failing_db, _rootpage := 4096 } record_event [] rfl).2⟩

/-- C10: for a page whose node holds `count` keys, `my_enumerate_page` calls
the callback exactly `count + 2` times: `PAGE_START` for the page, then
`ITEM` for key 0, 1, ..., `count - 1` in this order (each with that key and
the count), then `PAGE_STOP`; the `is_leaf` value of `PAGE_START` and
`PAGE_STOP` is 1 if `ptr_left` is 0 and 0 otherwise; the status is 0. -/
theorem my_enumerate_page_emits {Key : Type} (page : ham_page_t Key) (level sibcount : Nat) :
    my_enumerate_page page level sibcount record_event []
      = (0,
          [enum_event.ENUM_EVENT_PAGE_START page (if page._node._ptr_left = 0 then 1 else 0)]
          ++ (List.range page._node._count).map
              (fun i => enum_event.ENUM_EVENT_ITEM (page._node._entries i) page._node._count)
          ++ [enum_event.ENUM_EVENT_PAGE_STOP page (if page._node._ptr_left = 0 then 1 else 0)])
    ∧ (my_enumerate_page page level sibcount record_event []).2.length
        = page._node._count + 2
    ∧ ∀ (σ : Type) (cb : enum_event Key → σ → σ) (context : σ),
        my_enumerate_page page level sibcount cb context
          = (0, (page_events page).foldl (fun c e => cb e c) context) := by
  have h1 : my_enumerate_page page level sibcount record_event []
      = (0, page_events page) := by
    rw [my_enumerate_page_fold, foldl_record_event, List.nil_append]
  refine ⟨h1, ?_, fun σ cb context => my_enumerate_page_fold page level sibcount cb context⟩
  rw [h1]
  simp only [page_events, List.length_append, List.length_map, List.length_range,
    List.length_singleton]
  omega

/-- Evaluation of C10 on a leaf with three keys: five events, in order. -/
theorem my_enumerate_page_emits_witness :
    my_enumerate_page sample_leaf 0 0 record_event []
      = (0,
          [ enum_event.ENUM_EVENT_PAGE_START sample_leaf 1,
            enum_event.ENUM_EVENT_ITEM 10 3,
            enum_event.ENUM_EVENT_ITEM 11 3,
            enum_event.ENUM_EVENT_ITEM 12 3,
            enum_event.ENUM_EVENT_PAGE_STOP sample_leaf 1 ]) :=
  (my_enumerate_page_emits sample_leaf 0 0).1.trans rfl

/-! ## Theorems: freelist allocator -/

theorem scan_smallest_eq_none (ok : FreelistEntry → Bool) (l : List FreelistEntry) (k : Nat)
    (best : Option (Nat × FreelistEntry)) :
    scan_smallest ok l k best = none ↔ best = none ∧ ∀ e ∈ l, ok e = false := by
  induction l generalizing k best with
  | nil => simp [scan_smallest]
  | cons x xs ih =>
    unfold scan_smallest
    split
    · rename_i hc
      rw [ih]
      simp only [Bool.and_eq_true] at hc
      constructor
      · intro h; exact absurd h.1 (by simp)
      · intro h
        have := h.2 x (List.mem_cons_self _ _)
        rw [hc.1] at this
        cases this
    · rename_i hc
      rw [ih]
      constructor
      · rintro ⟨hb, hxs⟩
        refine ⟨hb, ?_⟩
        intro e he
        rcases List.mem_cons.mp he with rfl | he
        · subst hb
          simpa using hc
        · exact hxs e he
      · rintro ⟨hb, hxs⟩
        exact ⟨hb, fun e he => hxs e (List.mem_cons_of_mem _ he)⟩

theorem scan_smallest_eq_some (ok : FreelistEntry → Bool) (l : List FreelistEntry) (k : Nat)
    (best : Option (Nat × FreelistEntry)) (i : Nat) (e : FreelistEntry)
    (h : scan_smallest ok l k best = some (i, e)) :
    (best = some (i, e) ∨ (k ≤ i ∧ l[i - k]? = some e ∧ ok e = true))
    ∧ (∀ e1 ∈ l, ok e1 = true → e.size ≤ e1.size)
    ∧ (∀ j b, best = some (j, b) → e.size ≤ b.size) := by
  induction l generalizing k best with
  | nil =>
    simp only [scan_smallest] at h
    subst h
    refine ⟨Or.inl rfl, by simp, ?_⟩
    intro j b hb
    cases hb
    exact le_refl _
  | cons x xs ih =>
    unfold scan_smallest at h
    split at h
    · rename_i hc
      simp only [Bool.and_eq_true] at hc
      obtain ⟨h1, h2, h3⟩ := ih (k + 1) (some (k, x)) h
      have hex : e.size ≤ x.size := h3 k x rfl
      refine ⟨Or.inr ?_, ?_, ?_⟩
      · rcases h1 with h1 | ⟨hk, hget, hok⟩
        · cases h1
          simp [hc.1]
        · refine ⟨by omega, ?_, hok⟩
          have : i - k = (i - (k + 1)) + 1 := by omega
          rw [this, List.getElem?_cons_succ]
          exact hget
      · intro e1 he1 hok1
        rcases List.mem_cons.mp he1 with rfl | he1
        · exact hex
        · exact h2 e1 he1 hok1
      · intro j b hb
        subst hb
        have : x.size < b.size := by simpa using hc.2
        omega
    · rename_i hc
      obtain ⟨h1, h2, h3⟩ := ih (k + 1) best h
      refine ⟨?_, ?_, h3⟩
      · rcases h1 with h1 | ⟨hk, hget, hok⟩
        · exact Or.inl h1
        · refine Or.inr ⟨by omega, ?_, hok⟩
          have : i - k = (i - (k + 1)) + 1 := by omega
          rw [this, List.getElem?_cons_succ]
          exact hget
      · intro e1 he1 hok1
        rcases List.mem_cons.mp he1 with rfl | he1
        · cases best with
          | none => simp [hok1] at hc
          | some jb =>
            obtain ⟨j, b⟩ := jb
            have hb : b.size ≤ e1.size := by simpa [hok1] using hc
            exact le_trans (h3 j b rfl) hb
        · exact h2 e1 he1 hok1

theorem best_fit_some (h : PBlobPageHeader) (size i : Nat) (e : FreelistEntry)
    (hb : best_fit h size = some (i, e)) :
    h.m_freelist[i]? = some e ∧ size ≤ e.size
    ∧ ∀ e1 ∈ h.m_freelist, size ≤ e1.size → e.size ≤ e1.size := by
  obtain ⟨h1, h2, _⟩ := scan_smallest_eq_some _ _ _ _ _ _ hb
  rcases h1 with h1 | ⟨_, hget, hok⟩
  · cases h1
  · refine ⟨by simpa using hget, by simpa using hok, ?_⟩
    intro e1 he1 hs
    exact h2 e1 he1 (by simpa using hs)

theorem best_fit_none (h : PBlobPageHeader) (size : Nat) :
    best_fit h size = none ↔ ∀ e ∈ h.m_freelist, e.size < size := by
  unfold best_fit
  rw [scan_smallest_eq_none]
  simp

/-- C5: `alloc_from_freelist(header, size)` is best-fit: it returns an
offset if and only if some freelist entry has size >= `size`; the offset
returned is that of an entry whose size is the smallest among all entries
with size >= `size`; and if no entry is large enough it returns no offset
and leaves the header unchanged. -/
theorem alloc_from_freelist_best_fit (threshold : Nat) (h : PBlobPageHeader) (size : Nat) :
    ((alloc_from_freelist threshold h size).1.isSome = true
        ↔ ∃ e ∈ h.m_freelist, size ≤ e.size)
    ∧ (∀ off, (alloc_from_freelist threshold h size).1 = some off →
        ∃ e ∈ h.m_freelist, e.offset = off ∧ size ≤ e.size
          ∧ ∀ e1 ∈ h.m_freelist, size ≤ e1.size → e.size ≤ e1.size)
    ∧ ((∀ e ∈ h.m_freelist, e.size < size) →
        alloc_from_freelist threshold h size = (none, h)) := by
  have hoff : ∀ off, (alloc_from_freelist threshold h size).1 = some off →
      ∃ e ∈ h.m_freelist, e.offset = off ∧ size ≤ e.size
        ∧ ∀ e1 ∈ h.m_freelist, size ≤ e1.size → e.size ≤ e1.size := by
    intro off hoff
    unfold alloc_from_freelist at hoff
    cases hb : best_fit h size with
    | none => rw [hb] at hoff; cases hoff
    | some ie =>
      obtain ⟨i, e⟩ := ie
      rw [hb] at hoff
      obtain ⟨hget, hsz, hmin⟩ := best_fit_some h size i e hb
      have hmem : e ∈ h.m_freelist := List.getElem?_mem hget
      have : e.offset = off := by
        dsimp only at hoff
        split at hoff <;> simpa using hoff
      exact ⟨e, hmem, this, hsz, hmin⟩
  have hmiss : (∀ e ∈ h.m_freelist, e.size < size) →
      alloc_from_freelist threshold h size = (none, h) := by
    intro hall
    unfold alloc_from_freelist
    rw [(best_fit_none h size).mpr hall]
  refine ⟨⟨?_, ?_⟩, hoff, hmiss⟩
  · intro hs
    obtain ⟨off, ho⟩ := Option.isSome_iff_exists.mp hs
    obtain ⟨e, he, _, hsz, _⟩ := hoff off ho
    exact ⟨e, he, hsz⟩
  · rintro ⟨e, he, hsz⟩
    by_contra hn
    have hnone : best_fit h size = none := by
      cases hb : best_fit h size with
      | none => rfl
      | some ie =>
        exfalso
        apply hn
        unfold alloc_from_freelist
        rw [hb]
        dsimp only
        split <;> rfl
    have := (best_fit_none h size).mp hnone e he
    omega

/-- Evaluation of C5 on the sample header (sizes 1..32 at offsets
100, 110, ...): a request for 5 bytes gets offset 140, the entry of size 5;
a request for 33 bytes gets nothing. -/
theorem alloc_from_freelist_best_fit_witness :
    (alloc_from_freelist 8 sample_header 5).1 = some 140
    ∧ (∃ e ∈ sample_header.m_freelist, e.offset = 140 ∧ 5 ≤ e.size
        ∧ ∀ e1 ∈ sample_header.m_freelist, 5 ≤ e1.size → e.size ≤ e1.size)
    ∧ (∀ e ∈ sample_header.m_freelist, e.size < 33)
    ∧ (alloc_from_freelist 8 sample_header 33).1 = none :=
  ⟨by decide,
    (alloc_from_freelist_best_fit 8 sample_header 5).2.1 140 (by decide),
    by decide,
    congrArg Prod.fst
      ((alloc_from_freelist_best_fit 8 sample_header 33).2.2 (by decide))⟩

theorem first_index_eq_some (p : FreelistEntry → Bool) (l : List FreelistEntry) (k i : Nat)
    (h : first_index p l k = some i) :
    k ≤ i ∧ ∃ e, l[i - k]? = some e ∧ p e = true := by
  induction l generalizing k with
  | nil => simp [first_index] at h
  | cons x xs ih =>
    unfold first_index at h
    split at h
    · rename_i hp
      cases h
      exact ⟨le_refl _, x, by simp, hp⟩
    · obtain ⟨hk, e, hget, hpe⟩ := ih (k + 1) h
      refine ⟨by omega, e, ?_, hpe⟩
      have : i - k = (i - (k + 1)) + 1 := by omega
      rw [this, List.getElem?_cons_succ]
      exact hget

theorem sum_size_set (l : List FreelistEntry) (i : Nat) (old e : FreelistEntry)
    (h : l[i]? = some old) :
    ((l.set i e).map FreelistEntry.size).sum + old.size
      = (l.map FreelistEntry.size).sum + e.size := by
  induction l generalizing i with
  | nil => simp at h
  | cons x xs ih =>
    cases i with
    | zero =>
      simp only [List.getElem?_cons_zero, Option.some.injEq] at h
      subst h
      simp only [List.set_cons_zero, List.map_cons, List.sum_cons]
      omega
    | succ j =>
      simp only [List.getElem?_cons_succ] at h
      have := ih j h
      simp only [List.set_cons_succ, List.map_cons, List.sum_cons]
      omega

theorem freelist_size_sum_set_entry (h : PBlobPageHeader) (i : Nat) (old e : FreelistEntry)
    (hget : h.m_freelist[i]? = some old) :
    freelist_size_sum (set_entry h i e) + old.size = freelist_size_sum h + e.size :=
  sum_size_set h.m_freelist i old e hget

theorem find_placement_cases (h : PBlobPageHeader) (offset size : Nat) :
    (∃ i old, find_placement h offset size = .empty_slot i
        ∧ h.m_freelist[i]? = some old ∧ old.size = 0)
    ∨ (∃ i e, find_placement h offset size = .merge i e ∧ h.m_freelist[i]? = some e)
    ∨ (∃ i e, find_placement h offset size = .evict i e ∧ h.m_freelist[i]? = some e) := by
  unfold find_placement
  cases h1 : first_index (fun e => decide (e.size = 0)) h.m_freelist 0 with
  | some i =>
    obtain ⟨_, old, hget, hp⟩ := first_index_eq_some _ _ _ _ h1
    exact Or.inl ⟨i, old, rfl, by simpa using hget, by simpa using hp⟩
  | none =>
    cases h2 : scan_smallest (adjacent offset size) h.m_freelist 0 none with
    | some ie =>
      obtain ⟨i, e⟩ := ie
      obtain ⟨hh, _, _⟩ := scan_smallest_eq_some _ _ _ _ _ _ h2
      rcases hh with hh | ⟨_, hget, _⟩
      · cases hh
      · exact Or.inr (Or.inl ⟨i, e, rfl, by simpa using hget⟩)
    | none =>
      cases h3 : scan_smallest (fun _ => true) h.m_freelist 0 none with
      | some ie =>
        obtain ⟨i, e⟩ := ie
        obtain ⟨hh, _, _⟩ := scan_smallest_eq_some _ _ _ _ _ _ h3
        rcases hh with hh | ⟨_, hget, _⟩
        · cases hh
        · exact Or.inr (Or.inr ⟨i, e, rfl, by simpa using hget⟩)
      | none =>
        exfalso
        have hall := ((scan_smallest_eq_none _ _ _ _).mp h3).2
        have hlen := h.m_freelist_len
        cases hl : h.m_freelist with
        | nil => rw [hl] at hlen; simp at hlen
        | cons x xs =>
          have := hall x (by rw [hl]; exact List.mem_cons_self _ _)
          cases this

/-- One `add_to_freelist` keeps `free_bytes` equal, modulo `2^32`, to the sum of
the sizes plus the evicted bytes. -/
theorem add_to_freelist_invariant (h : PBlobPageHeader) (offset size w : Nat)
    (hinv : get_free_bytes h = (freelist_size_sum h + w) % U32) :
    get_free_bytes (add_to_freelist h offset size)
      = (freelist_size_sum (add_to_freelist h offset size)
          + (w + evicted_size h offset size)) % U32 := by
  unfold add_to_freelist evicted_size
  unfold U32 at *
  rcases find_placement_cases h offset size with
    ⟨i, old, hp, hget, hz⟩ | ⟨i, e, hp, hget⟩ | ⟨i, e, hp, hget⟩
  · rw [hp]
    have hs := freelist_size_sum_set_entry h i old
      { offset := offset % 4294967296, size := size % 4294967296 } hget
    simp only [get_free_bytes, set_free_bytes, freelist_size_sum, set_entry, U32] at *
    omega
  · rw [hp]
    dsimp only
    split
    · have hs := freelist_size_sum_set_entry h i e
        { offset := e.offset, size := (e.size + size) % 4294967296 } hget
      simp only [get_free_bytes, set_free_bytes, freelist_size_sum, set_entry, U32] at *
      omega
    · have hs := freelist_size_sum_set_entry h i e
        { offset := offset % 4294967296, size := (e.size + size) % 4294967296 } hget
      simp only [get_free_bytes, set_free_bytes, freelist_size_sum, set_entry, U32] at *
      omega
  · rw [hp]
    have hs := freelist_size_sum_set_entry h i e
      { offset := offset % 4294967296, size := size % 4294967296 } hget
    simp only [get_free_bytes, set_free_bytes, freelist_size_sum, set_entry, U32] at *
    omega

/-- One `alloc_from_freelist` keeps the same relation. -/
theorem alloc_from_freelist_invariant (threshold : Nat) (h : PBlobPageHeader) (size w : Nat)
    (hinv : get_free_bytes h = (freelist_size_sum h + w) % U32) :
    get_free_bytes (alloc_from_freelist threshold h size).2
      = (freelist_size_sum (alloc_from_freelist threshold h size).2 + w) % U32 := by
  unfold alloc_from_freelist
  cases hb : best_fit h size with
  | none => exact hinv
  | some ie =>
    obtain ⟨i, e⟩ := ie
    obtain ⟨hget, hsz, _⟩ := best_fit_some h size i e hb
    dsimp only
    unfold U32 at *
    split
    · have hs := freelist_size_sum_set_entry h i e
        { offset := (e.offset + size) % 4294967296, size := e.size - size } hget
      simp only [get_free_bytes, set_free_bytes, freelist_size_sum, set_entry, sub32, U32] at *
      omega
    · have hs := freelist_size_sum_set_entry h i e { offset := 0, size := 0 } hget
      simp only [get_free_bytes, set_free_bytes, freelist_size_sum, set_entry, sub32, U32] at *
      omega

theorem run_ops_invariant (threshold : Nat) (ops : List freelist_op) (h : PBlobPageHeader)
    (w : Nat) (hinv : get_free_bytes h = (freelist_size_sum h + w) % U32) :
    get_free_bytes (run_ops threshold h ops)
      = (freelist_size_sum (run_ops threshold h ops) + (w + wasted threshold h ops)) % U32 := by
  induction ops generalizing h w with
  | nil => simpa [run_ops, wasted] using hinv
  | cons op ops ih =>
    cases op with
    | add offset size =>
      have := ih (add_to_freelist h offset size) (w + evicted_size h offset size)
        (add_to_freelist_invariant h offset size w hinv)
      simpa [run_ops, wasted, apply_op, Nat.add_assoc] using this
    | alloc size =>
      have := ih (alloc_from_freelist threshold h size).2 w
        (alloc_from_freelist_invariant threshold h size w hinv)
      simpa [run_ops, wasted, apply_op] using this

theorem initialize_header_free_bytes (h : PBlobPageHeader) :
    get_free_bytes (initialize_header h) = 0
    ∧ get_free_bytes (initialize_header h) = freelist_size_sum (initialize_header h) := by
  constructor
  · rfl
  · simp only [get_free_bytes, freelist_size_sum, initialize_header, List.map_replicate,
      List.sum_replicate, smul_eq_mul, mul_zero]

/-- C6 fails as stated: after 33 pairwise non-adjacent frees of 10 bytes on
a zero-initialised header the 33rd evicts an entry, `free_bytes` is 330 and
the freelist sizes add up to 320. -/
theorem free_bytes_overstates_after_eviction :
    get_free_bytes (run_ops 0 (initialize_header sample_header) thirty_three_frees) = 330
    ∧ freelist_size_sum (run_ops 0 (initialize_header sample_header) thirty_three_frees) = 320
    ∧ get_free_bytes (run_ops 0 (initialize_header sample_header) thirty_three_frees)
      ≠ freelist_size_sum (run_ops 0 (initialize_header sample_header) thirty_three_frees) := by
  decide

/-- C6 (amended): for every header reached from a zero-initialised header by
any sequence of `add_to_freelist` and `alloc_from_freelist` calls,
`free_bytes` equals, modulo `2^32`, the sum of the sizes of all freelist
entries plus the sizes of the entries evicted by `add_to_freelist` on a full
table; so `free_bytes` equals the sum as long as nothing was evicted and the
sum fits 32 bits.  Every `add_to_freelist`, also on a full table, increments
`free_bytes` by `size`. -/
theorem free_bytes_invariant (threshold : Nat) (h0 : PBlobPageHeader)
    (ops : List freelist_op) :
    get_free_bytes (run_ops threshold (initialize_header h0) ops)
      = (freelist_size_sum (run_ops threshold (initialize_header h0) ops)
          + wasted threshold (initialize_header h0) ops) % U32
    ∧ (wasted threshold (initialize_header h0) ops = 0 →
        freelist_size_sum (run_ops threshold (initialize_header h0) ops) < U32 →
        get_free_bytes (run_ops threshold (initialize_header h0) ops)
          = freelist_size_sum (run_ops threshold (initialize_header h0) ops))
    ∧ ∀ h offset size,
        get_free_bytes (add_to_freelist h offset size)
          = (get_free_bytes h + size) % U32 := by
  have hinit : get_free_bytes (initialize_header h0)
      = (freelist_size_sum (initialize_header h0) + 0) % U32 := by
    rw [← (initialize_header_free_bytes h0).2, (initialize_header_free_bytes h0).1]
    rfl
  have hmain := run_ops_invariant threshold ops (initialize_header h0) 0 hinit
  rw [Nat.zero_add] at hmain
  refine ⟨hmain, ?_, ?_⟩
  · intro hw hlt
    rw [hmain, hw, Nat.add_zero, Nat.mod_eq_of_lt hlt]
  · intro h offset size
    unfold add_to_freelist
    rcases find_placement_cases h offset size with
      ⟨i, old, hp, _, _⟩ | ⟨i, e, hp, _⟩ | ⟨i, e, hp, _⟩
    · rw [hp]; rfl
    · rw [hp]; dsimp only; split <;> rfl
    · rw [hp]; rfl

/-- Evaluation of the amended C6: two frees and an allocation without
eviction leave `free_bytes` equal to the sum of the sizes, 25. -/
theorem free_bytes_invariant_witness :
    wasted 0 (initialize_header sample_header) three_calls = 0
    ∧ freelist_size_sum (run_ops 0 (initialize_header sample_header) three_calls) < U32
    ∧ get_free_bytes (run_ops 0 (initialize_header sample_header) three_calls)
      = freelist_size_sum (run_ops 0 (initialize_header sample_header) three_calls)
    ∧ freelist_size_sum (run_ops 0 (initialize_header sample_header) three_calls) = 25 :=
  ⟨by decide, by decide,
    (free_bytes_invariant 0 sample_header three_calls).2.1 (by decide) (by decide),
    by decide⟩

/-! ## Theorems: level order of the enumeration -/

theorem my_enumerate_level_chain {Key S σ : Type}
    (fetch : ham_db_t S → Nat → Nat → ham_db_t S × Option (ham_page_t Key))
    (cb : enum_event Key → σ → σ) (sibs : List (ham_page_t Key)) :
    ∀ (page : ham_page_t Key) (db : ham_db_t S) (level count : Nat) (context : σ)
      (fuel : Nat), chain_from fetch page sibs → sibs.length + 1 ≤ fuel →
      ∃ db1, my_enumerate_level fetch cb fuel db page level count context
        = some { st := 0
                 context := (chain_events (page :: sibs)).foldl (fun c e => cb e c) context
                 db := db1 } := by
  induction sibs with
  | nil =>
    intro page db level count context fuel hch hfuel
    cases fuel with
    | zero => omega
    | succ n =>
      have hr : page._node._right = 0 := hch
      refine ⟨db, ?_⟩
      simp only [my_enumerate_level, my_enumerate_page_fold, hr, chain_events,
        List.append_nil, ne_eq, not_true_eq_false, if_false]
  | cons q rest ih =>
    intro page db level count context fuel hch hfuel
    cases fuel with
    | zero => omega
    | succ n =>
      obtain ⟨hr, hf, hrest⟩ := hch
      have hq := hf db
      have hn : rest.length + 1 ≤ n := by
        simp only [List.length_cons] at hfuel
        omega
      simp only [my_enumerate_level, my_enumerate_page_fold, ne_eq, not_true_eq_false,
        if_false, hr, not_false_eq_true, if_true]
      generalize fetch db page._node._right 0 = r at hq
      obtain ⟨db1, o⟩ := r
      simp only at hq
      subst hq
      obtain ⟨db2, h2⟩ := ih q db1 level ((count + 1) % U32)
        ((page_events page).foldl (fun c e => cb e c) context) n hrest hn
      refine ⟨db2, ?_⟩
      simp only [h2, chain_events, List.foldl_append]

theorem btree_enumerate_loop_levels {Key S σ : Type}
    (fetch : ham_db_t S → Nat → Nat → ham_db_t S × Option (ham_page_t Key))
    (cb : enum_event Key → σ → σ)
    (lower : List (ham_page_t Key × List (ham_page_t Key))) :
    ∀ (page : ham_page_t Key) (sibs : List (ham_page_t Key)) (db : ham_db_t S)
      (level : Nat) (context : σ) (fuel : Nat),
      levels_from fetch page sibs lower → pages_count sibs lower ≤ fuel →
      ∃ db1, btree_enumerate_loop fetch cb fuel db page level context
        = some { st := 0
                 context := (tree_events_u32 level page sibs lower).foldl
                   (fun c e => cb e c) context
                 db := db1 } := by
  induction lower with
  | nil =>
    intro page sibs db level context fuel hwf hfuel
    obtain ⟨hch, hleft⟩ := hwf
    cases fuel with
    | zero => simp only [pages_count] at hfuel; omega
    | succ n =>
      obtain ⟨db1, h1⟩ := my_enumerate_level_chain fetch cb sibs page db level 0
        (cb (.ENUM_EVENT_DESCEND level) context) (n + 1) hch
        (by simpa only [pages_count] using hfuel)
      refine ⟨db1, ?_⟩
      simp only [btree_enumerate_loop, h1, hleft, ne_eq, not_true_eq_false, if_false,
        tree_events_u32, List.foldl_cons]
  | cons l rest ih =>
    obtain ⟨q, qs⟩ := l
    intro page sibs db level context fuel hwf hfuel
    obtain ⟨hch, hleft, hf, hrest⟩ := hwf
    cases fuel with
    | zero => simp only [pages_count] at hfuel; omega
    | succ n =>
      simp only [pages_count] at hfuel
      obtain ⟨db1, h1⟩ := my_enumerate_level_chain fetch cb sibs page db level 0
        (cb (.ENUM_EVENT_DESCEND level) context) (n + 1) hch (by omega)
      have hq := hf db1
      simp only [btree_enumerate_loop, h1, hleft, ne_eq, not_true_eq_false, if_false,
        not_false_eq_true, if_true]
      generalize fetch db1 page._node._ptr_left 0 = r at hq
      obtain ⟨db2, o⟩ := r
      simp only at hq
      subst hq
      obtain ⟨db3, h3⟩ := ih q qs db2 ((level + 1) % U32)
        ((chain_events (page :: sibs)).foldl (fun c e => cb e c)
          (cb (.ENUM_EVENT_DESCEND level) context)) n hrest (by omega)
      refine ⟨db3, ?_⟩
      simp only [h3, tree_events_u32, List.foldl_cons, List.foldl_append]

theorem tree_events_u32_eq {Key : Type}
    (lower : List (ham_page_t Key × List (ham_page_t Key))) :
    ∀ (k : Nat) (page : ham_page_t Key) (sibs : List (ham_page_t Key)),
      k + lower.length + 1 ≤ U32 →
      tree_events_u32 k page sibs lower = tree_events k page sibs lower := by
  induction lower with
  | nil => intro k page sibs _; rfl
  | cons l rest ih =>
    obtain ⟨q, qs⟩ := l
    intro k page sibs hk
    simp only [List.length_cons] at hk
    have hmod : (k + 1) % U32 = k + 1 := Nat.mod_eq_of_lt (by omega)
    simp only [tree_events_u32, tree_events, hmod]
    rw [ih (k + 1) q qs (by omega)]

theorem descend_levels_append {Key : Type} (l1 l2 : List (enum_event Key)) :
    descend_levels (l1 ++ l2) = descend_levels l1 ++ descend_levels l2 := by
  induction l1 with
  | nil => rfl
  | cons e es ih =>
    cases e <;> simp [descend_levels, ih]

theorem descend_levels_page_events {Key : Type} (page : ham_page_t Key) :
    descend_levels (page_events page) = [] := by
  have hitems : ∀ (l : List Nat),
      descend_levels (l.map (fun i =>
        enum_event.ENUM_EVENT_ITEM (page._node._entries i) page._node._count)) = [] := by
    intro l
    induction l with
    | nil => rfl
    | cons i is ih => exact ih
  simp only [page_events]
  rw [descend_levels_append, descend_levels_append, hitems]
  rfl

theorem descend_levels_chain_events {Key : Type} (ps : List (ham_page_t Key)) :
    descend_levels (chain_events ps) = [] := by
  induction ps with
  | nil => rfl
  | cons p ps ih =>
    simp only [chain_events, descend_levels_append, descend_levels_page_events, ih,
      List.append_nil]

theorem descend_levels_tree_events {Key : Type}
    (lower : List (ham_page_t Key × List (ham_page_t Key))) :
    ∀ (k : Nat) (page : ham_page_t Key) (sibs : List (ham_page_t Key)),
      descend_levels (tree_events k page sibs lower) = List.range' k (lower.length + 1) := by
  induction lower with
  | nil =>
    intro k page sibs
    show k :: descend_levels (chain_events (page :: sibs)) = _
    rw [descend_levels_chain_events]
    rfl
  | cons l rest ih =>
    obtain ⟨q, qs⟩ := l
    intro k page sibs
    show k :: descend_levels (chain_events (page :: sibs) ++ tree_events (k + 1) q qs rest)
      = _
    rw [descend_levels_append, descend_levels_chain_events, ih, List.nil_append]
    rfl

theorem btree_enumerate_tree {Key S σ : Type}
    (fetch : ham_db_t S → Nat → Nat → ham_db_t S × Option (ham_page_t Key))
    (be : ham_btree_t S) (root : ham_page_t Key) (sibs : List (ham_page_t Key))
    (lower : List (ham_page_t Key × List (ham_page_t Key))) (fuel : Nat)
    (cb : enum_event Key → σ → σ) (context : σ)
    (hroot : (fetch be._db be._rootpage 0).2 = some root)
    (hwf : levels_from fetch root sibs lower)
    (hfuel : pages_count sibs lower ≤ fuel) :
    ∃ r, btree_enumerate fetch fuel be cb context = some r ∧ r.st = 0
      ∧ r.context = (tree_events_u32 0 root sibs lower).foldl (fun c e => cb e c) context := by
  unfold btree_enumerate
  dsimp only
  generalize fetch be._db be._rootpage 0 = r0 at hroot
  obtain ⟨db1, o⟩ := r0
  simp only at hroot
  subst hroot
  obtain ⟨db2, h2⟩ := btree_enumerate_loop_levels fetch cb lower root sibs db1 0 context
    fuel hwf hfuel
  exact ⟨_, h2, rfl, rfl⟩

/-- C11: for a well-formed tree (the root fetch and every `ptr_left` and
`right` fetch succeed, the first pages p0, p1, ... of the levels are linked
by `ptr_left` down to the first one whose `ptr_left` is 0, every level is
the right-sibling chain of its first page, and the height h fits the
`ham_u32_t` level counter) and enough fuel, `btree_enumerate` returns 0 and
its callback log is, level after level, one `DESCEND` carrying the level
number followed by the events of the pages of that level in chain order,
each page once; the `DESCEND` events carry 0, 1, ..., h-1.  Without the
bound on h the same holds with the level numbers taken modulo `2^32`, and
for every callback the final context is the fold over these events. -/
theorem btree_enumerate_level_order {Key S : Type}
    (fetch : ham_db_t S → Nat → Nat → ham_db_t S × Option (ham_page_t Key))
    (be : ham_btree_t S) (root : ham_page_t Key) (sibs : List (ham_page_t Key))
    (lower : List (ham_page_t Key × List (ham_page_t Key))) (fuel : Nat)
    (hroot : (fetch be._db be._rootpage 0).2 = some root)
    (hwf : levels_from fetch root sibs lower)
    (hfuel : pages_count sibs lower ≤ fuel) :
    (lower.length + 1 ≤ U32 →
      ∃ r, btree_enumerate fetch fuel be record_event [] = some r ∧ r.st = 0
        ∧ r.context = tree_events 0 root sibs lower
        ∧ descend_levels r.context = List.range (lower.length + 1))
    ∧ (∃ r, btree_enumerate fetch fuel be record_event [] = some r ∧ r.st = 0
        ∧ r.context = tree_events_u32 0 root sibs lower)
    ∧ ∀ (σ : Type) (cb : enum_event Key → σ → σ) (context : σ),
        ∃ r, btree_enumerate fetch fuel be cb context = some r ∧ r.st = 0
          ∧ r.context
            = (tree_events_u32 0 root sibs lower).foldl (fun c e => cb e c) context := by
  have hlog : ∃ r, btree_enumerate fetch fuel be record_event [] = some r ∧ r.st = 0
      ∧ r.context = tree_events_u32 0 root sibs lower := by
    obtain ⟨r, hr, hst, hctx⟩ :=
      btree_enumerate_tree fetch be root sibs lower fuel record_event [] hroot hwf hfuel
    refine ⟨r, hr, hst, ?_⟩
    rw [hctx, foldl_record_event, List.nil_append]
  refine ⟨?_, hlog, ?_⟩
  · intro hh
    obtain ⟨r, hr, hst, hctx⟩ := hlog
    have heq := tree_events_u32_eq lower 0 root sibs (by omega)
    refine ⟨r, hr, hst, hctx.trans heq, ?_⟩
    rw [hctx, heq, descend_levels_tree_events, List.range_eq_range']
  · intro σ cb context
    exact btree_enumerate_tree fetch be root sibs lower fuel cb context hroot hwf hfuel

/-- Evaluation of C11 on the sample tree (a root above two leaves): the
log has `DESCEND 0`, the root, `DESCEND 1`, then the two leaves in chain
order. -/
theorem btree_enumerate_level_order_witness :
    (sample_fetch failing_db 1 0).2 = some sample_root
    ∧ levels_from sample_fetch sample_root [] [(sample_leaf_a, [sample_leaf_b])]
    ∧ pages_count ([] : List (ham_page_t Nat)) [(sample_leaf_a, [sample_leaf_b])] ≤ 3
    ∧ ∃ r, btree_enumerate sample_fetch 3 { _db := failing_db, _rootpage := 1 }
          record_event [] = some r
        ∧ r.st = 0
        ∧ r.context =
          [ enum_event.ENUM_EVENT_DESCEND 0,
            enum_event.ENUM_EVENT_PAGE_START sample_root 0,
            enum_event.ENUM_EVENT_ITEM 50 1,
            enum_event.ENUM_EVENT_PAGE_STOP sample_root 0,
            enum_event.ENUM_EVENT_DESCEND 1,
            enum_event.ENUM_EVENT_PAGE_START sample_leaf_a 1,
            enum_event.ENUM_EVENT_ITEM 10 2,
            enum_event.ENUM_EVENT_ITEM 11 2,
            enum_event.ENUM_EVENT_PAGE_STOP sample_leaf_a 1,
            enum_event.ENUM_EVENT_PAGE_START sample_leaf_b 1,
            enum_event.ENUM_EVENT_ITEM 60 1,
            enum_event.ENUM_EVENT_PAGE_STOP sample_leaf_b 1 ]
        ∧ descend_levels r.context = [0, 1] :=
  have hwf : levels_from sample_fetch sample_root [] [(sample_leaf_a, [sample_leaf_b])] :=
    ⟨rfl, by decide, fun _ => rfl,
      ⟨by decide, fun _ => rfl, rfl⟩, rfl⟩
  ⟨rfl, hwf, by decide,
    match (btree_enumerate_level_order sample_fetch { _db := failing_db, _rootpage := 1 }
        sample_root [] [(sample_leaf_a, [sample_leaf_b])] 3 rfl hwf (by decide)).1
        (by decide) with
    | ⟨r, hr, hst, hctx, hlev⟩ => ⟨r, hr, hst, hctx.trans rfl, hlev.trans rfl⟩⟩

end upscaledb
